import Mathlib

/-!
Shallow embedding of the AVL tree implemented in `AVLtree.cpp`
(`template <typename T> class AVLTree`), instantiated at `T = Int` as in the
demonstration driver.  A C++ `Node*` is modelled by the inductive type `AVL.Tree`:
`nil` is the null pointer and `node value left right height` is a `Node` with its
four fields (`height` is the cached `int height` field, kept as an unbounded `Int`
since tree heights cannot approach `2^31`).  Each member function of the class is
translated into a pure function on `Tree`; in-place pointer mutation becomes
rebuilding of the affected nodes, which is faithful because ownership in the C++
class is strictly hierarchical (no aliasing between subtrees).
-/

namespace AVL

/-- Model of `AVLTree<int>::Node*`: either the null pointer or a node with a
value, two child pointers and the cached height field. -/
inductive Tree : Type where
  | nil : Tree
  | node (value : Int) (left : Tree) (right : Tree) (height : Int) : Tree
deriving DecidableEq, Repr

open Tree

/-- Model of `getHeight`: `node ? node->height : 0` (reads the cache only). -/
def getHeight : Tree → Int
  | nil => 0
  | node _ _ _ h => h

/-- Model of `getBalance`: `node ? getHeight(node->left) - getHeight(node->right) : 0`. -/
def getBalance : Tree → Int
  | nil => 0
  | node _ l r _ => getHeight l - getHeight r

/-- Model of `updateHeight`: `node->height = 1 + max(getHeight(node->left),
getHeight(node->right))`.  The source only ever calls it on a non-null node; the
`nil` case here is arbitrary and unreachable (see the Option-valued model below). -/
def updateHeight : Tree → Tree
  | nil => nil
  | node v l r _ => node v l r (1 + max (getHeight l) (getHeight r))

/-- Model of `rotateRight(y)`: `x = y->left; y->left = x->right; x->right = y;
updateHeight(y); updateHeight(x); return x`.  The source dereferences `y->left`
without a null check, so the fall-through case (absent node or absent left child)
is undefined behaviour in C++; it is modelled as the identity and proved
unreachable from the red-path callers (see `balanceO_eq`). -/
def rotateRight : Tree → Tree
  | node yv (node xv xl xr xh) yr yh =>
      updateHeight (node xv xl (updateHeight (node yv xr yr yh)) xh)
  | t => t

/-- Model of `rotateLeft(x)`: mirror image of `rotateRight`; dereferences
`x->right` without a null check. -/
def rotateLeft : Tree → Tree
  | node xv xl (node yv yl yr yh) xh =>
      updateHeight (node yv (updateHeight (node xv xl yl xh)) yr yh)
  | t => t

/-- Model of `balance(node)`: update the node's height, read the balance factor,
and apply the four-case rotation scheme.  In the double-rotation cases the inner
rotation replaces the child (`node->left = rotateLeft(node->left)`) before the
outer rotation runs on the node (whose height field already holds the value
written by `updateHeight`). -/
def balance : Tree → Tree
  | nil => nil
  | node v l r _ =>
      if getHeight l - getHeight r > 1 then
        if getBalance l < 0 then
          rotateRight (node v (rotateLeft l) r (1 + max (getHeight l) (getHeight r)))
        else
          rotateRight (node v l r (1 + max (getHeight l) (getHeight r)))
      else if getHeight l - getHeight r < -1 then
        if getBalance r > 0 then
          rotateLeft (node v l (rotateRight r) (1 + max (getHeight l) (getHeight r)))
        else
          rotateLeft (node v l r (1 + max (getHeight l) (getHeight r)))
      else
        node v l r (1 + max (getHeight l) (getHeight r))

/-- Model of the private `insert(Node* node, const T& value)`: BST descent with
`operator<`, duplicates returned unchanged, `balance` applied on the way back up. -/
def insert : Tree → Int → Tree
  | nil, value => node value nil nil 1
  | node v l r h, value =>
      if value < v then balance (node v (insert l value) r h)
      else if v < value then balance (node v l (insert r value) h)
      else node v l r h

/-- Model of `findMin`: `while (node && node->left) node = node->left; return node`. -/
def findMin : Tree → Tree
  | nil => nil
  | node v nil r h => node v nil r h
  | node _ (node lv ll lr lh) _ _ => findMin (node lv ll lr lh)

/-- Model of `removeMin(node)`: `if (!node->left) return node->right;
node->left = removeMin(node->left); return balance(node);`.  The source
dereferences `node->left` on a null `node`, so the `nil` case is undefined
behaviour; it is modelled as `nil` and proved unreachable (see `removeMinO_eq`). -/
def removeMin : Tree → Tree
  | nil => nil
  | node _ nil r _ => r
  | node v (node lv ll lr lh) r h => balance (node v (removeMin (node lv ll lr lh)) r h)

/-- Model of the private `remove(Node* node, const T& value)`.  In the matched
case the node is deleted; if the right child is absent the left child is
returned, otherwise the minimum node `min` of the right subtree is reused as the
new subtree root: `min->right = removeMin(right); min->left = left; return
balance(min);` — `min` keeps its value and its (stale) cached height, which
`balance` immediately recomputes.  `findMin` of a non-null tree is always a node,
so the `nil` fall-through of the inner match is unreachable. -/
def remove : Tree → Int → Tree
  | nil, _ => nil
  | node v l r h, value =>
      if value < v then balance (node v (remove l value) r h)
      else if v < value then balance (node v l (remove r value) h)
      else
        match r with
        | nil => l
        | node rv rl rr rh =>
            match findMin (node rv rl rr rh) with
            | node mv _ _ mh => balance (node mv l (removeMin (node rv rl rr rh)) mh)
            | nil => nil

/-- Model of `contains`: iterative descent by `operator<`, returning whether the
value was found; recursion over the descent path is observationally identical to
the source's `while` loop. -/
def contains : Tree → Int → Bool
  | nil, _ => false
  | node v l r _, value =>
      if value < v then contains l value
      else if v < value then contains r value
      else true

/-- Model of `empty()`: `root == nullptr`. -/
def empty : Tree → Bool
  | nil => true
  | node _ _ _ _ => false

/-- Model of `inOrder` / `inOrderTraversal`: left subtree, node value, right
subtree, materialized into a list. -/
def inOrder : Tree → List Int
  | nil => []
  | node v l r _ => inOrder l ++ v :: inOrder r

/-- Model of `preOrder` / `preOrderTraversal`. -/
def preOrder : Tree → List Int
  | nil => []
  | node v l r _ => v :: (preOrder l ++ preOrder r)

/-- Model of `postOrder` / `postOrderTraversal`. -/
def postOrder : Tree → List Int
  | nil => []
  | node v l r _ => postOrder l ++ postOrder r ++ [v]

/-- Value stored at the root, if any (used to state the concrete scenarios). -/
def rootValue : Tree → Option Int
  | nil => none
  | node v _ _ _ => some v

/-- Number of nodes of the tree. -/
def size : Tree → Nat
  | nil => 0
  | node _ l r _ => size l + size r + 1

/-- Checks that every node's cached height field equals
`1 + max(height(left), height(right))`, an absent child counting as height 0
(the spec's height-correctness invariant). -/
def heightsOk : Tree → Bool
  | nil => true
  | node _ l r h =>
      decide (h = 1 + max (getHeight l) (getHeight r)) && heightsOk l && heightsOk r

/-- Checks that every node's balance factor (difference of the cached child
heights, as the source's `getBalance` reads it) lies in `[-1, 1]`. -/
def balancedOk : Tree → Bool
  | nil => true
  | node _ l r _ =>
      decide (-1 ≤ getHeight l - getHeight r ∧ getHeight l - getHeight r ≤ 1) &&
        balancedOk l && balancedOk r

/-- Every value in the tree is strictly below the bound. -/
def allLt : Tree → Int → Bool
  | nil, _ => true
  | node v l r _, b => decide (v < b) && allLt l b && allLt r b

/-- Every value in the tree is strictly above the bound. -/
def allGt : Tree → Int → Bool
  | nil, _ => true
  | node v l r _, b => decide (b < v) && allGt l b && allGt r b

/-- The binary-search-tree ordering invariant: at every node, all values of the
left subtree are smaller and all values of the right subtree are larger. -/
def bstOk : Tree → Bool
  | nil => true
  | node v l r _ => allLt l v && allGt r v && bstOk l && bstOk r

/-- The full data-model invariant of the spec: correct cached heights, AVL
balance at every node, and the search-tree order. -/
def invariantOk (t : Tree) : Bool := heightsOk t && balancedOk t && bstOk t

/-- One public mutating call of the class: `insert(value)` or `remove(value)`. -/
inductive Op : Type where
  | ins (value : Int) : Op
  | del (value : Int) : Op
deriving DecidableEq, Repr

/-- Effect of one public call on the root pointer (`root = insert(root, value)`
or `root = remove(root, value)`). -/
def applyOp (t : Tree) : Op → Tree
  | Op.ins v => insert t v
  | Op.del v => remove t v

/-- State of the tree after a sequence of public insert/remove calls applied to
a freshly constructed (empty) tree. -/
def runOps (ops : List Op) : Tree := ops.foldl applyOp nil

/-!
Option-valued re-reading of the helper functions, used to settle the
null-dereference safety claim.  Each function returns `none` exactly where the
C++ source would dereference a null pointer: `rotateRight` reads `y->left->right`
with no null check, `rotateLeft` reads `x->right->left`, `removeMin` reads
`node->left` on its argument, and `balance` calls `updateHeight(node)` on its
argument.  Agreement of these functions with the total model (`… = some …`)
states that the corresponding execution performs no null dereference.
-/

/-- Option-valued `rotateRight`: `none` when `y` or `y->left` is absent. -/
def rotateRightO : Tree → Option Tree
  | node yv (node xv xl xr xh) yr yh =>
      some (updateHeight (node xv xl (updateHeight (node yv xr yr yh)) xh))
  | _ => none

/-- Option-valued `rotateLeft`: `none` when `x` or `x->right` is absent. -/
def rotateLeftO : Tree → Option Tree
  | node xv xl (node yv yl yr yh) xh =>
      some (updateHeight (node yv (updateHeight (node xv xl yl xh)) yr yh))
  | _ => none

/-- Option-valued `balance`: `none` when the node itself is absent
(`updateHeight(node)` would dereference it) or when an inner or outer rotation
dereferences an absent child. -/
def balanceO : Tree → Option Tree
  | nil => none
  | node v l r _ =>
      if getHeight l - getHeight r > 1 then
        if getBalance l < 0 then
          match rotateLeftO l with
          | some l2 => rotateRightO (node v l2 r (1 + max (getHeight l) (getHeight r)))
          | none => none
        else rotateRightO (node v l r (1 + max (getHeight l) (getHeight r)))
      else if getHeight l - getHeight r < -1 then
        if getBalance r > 0 then
          match rotateRightO r with
          | some r2 => rotateLeftO (node v l r2 (1 + max (getHeight l) (getHeight r)))
          | none => none
        else rotateLeftO (node v l r (1 + max (getHeight l) (getHeight r)))
      else some (node v l r (1 + max (getHeight l) (getHeight r)))

/-- Option-valued `removeMin`: `none` when the argument is absent (the source
reads `node->left` unguarded) or when a rebalance on the return path fails. -/
def removeMinO : Tree → Option Tree
  | nil => none
  | node _ nil r _ => some r
  | node v (node lv ll lr lh) r h =>
      match removeMinO (node lv ll lr lh) with
      | some l2 => balanceO (node v l2 r h)
      | none => none

/-- Option-valued private `remove`: threads the possible failure of `balance`
and `removeMin` through the recursion; `findMin` needs no guard (its loop
condition checks for null). -/
def removeO : Tree → Int → Option Tree
  | nil, _ => some nil
  | node v l r h, value =>
      if value < v then
        match removeO l value with
        | some l2 => balanceO (node v l2 r h)
        | none => none
      else if v < value then
        match removeO r value with
        | some r2 => balanceO (node v l r2 h)
        | none => none
      else
        match r with
        | nil => some l
        | node rv rl rr rh =>
            match findMin (node rv rl rr rh) with
            | node mv _ _ mh =>
                match removeMinO (node rv rl rr rh) with
                | some r2 => balanceO (node mv l r2 mh)
                | none => none
            | nil => none

end AVL

namespace AVL

open Tree

/-! Constructor-level reading of the accessors (used so that goals stay in
terms of `getHeight` atoms that linear arithmetic can handle). -/

theorem getHeight_nil : getHeight nil = 0 := rfl

theorem getHeight_node {v h : Int} {l r : Tree} : getHeight (node v l r h) = h := rfl

theorem getBalance_nil : getBalance nil = 0 := rfl

theorem getBalance_node {v h : Int} {l r : Tree} :
    getBalance (node v l r h) = getHeight l - getHeight r := rfl

theorem inOrder_nil : inOrder nil = [] := rfl

theorem inOrder_node {v h : Int} {l r : Tree} :
    inOrder (node v l r h) = inOrder l ++ v :: inOrder r := rfl

/-! Basic unfolding lemmas for the Boolean invariant checkers. -/

theorem heightsOk_node {v h : Int} {l r : Tree} :
    heightsOk (node v l r h) = true ↔
      h = 1 + max (getHeight l) (getHeight r) ∧ heightsOk l = true ∧ heightsOk r = true := by
  simp [heightsOk, and_assoc]

theorem balancedOk_node {v h : Int} {l r : Tree} :
    balancedOk (node v l r h) = true ↔
      (-1 ≤ getHeight l - getHeight r ∧ getHeight l - getHeight r ≤ 1) ∧
        balancedOk l = true ∧ balancedOk r = true := by
  simp [balancedOk, and_assoc]

theorem allLt_node {v b h : Int} {l r : Tree} :
    allLt (node v l r h) b = true ↔ v < b ∧ allLt l b = true ∧ allLt r b = true := by
  simp [allLt, and_assoc]

theorem allGt_node {v b h : Int} {l r : Tree} :
    allGt (node v l r h) b = true ↔ b < v ∧ allGt l b = true ∧ allGt r b = true := by
  simp [allGt, and_assoc]

theorem bstOk_node {v h : Int} {l r : Tree} :
    bstOk (node v l r h) = true ↔
      allLt l v = true ∧ allGt r v = true ∧ bstOk l = true ∧ bstOk r = true := by
  simp [bstOk, and_assoc]

/-- Under the height-correctness invariant every cached height is nonnegative. -/
theorem getHeight_nonneg {t : Tree} (ht : heightsOk t = true) : 0 ≤ getHeight t := by
  induction t with
  | nil => simp [getHeight]
  | node v l r h ihl ihr =>
      rcases heightsOk_node.mp ht with ⟨hh, hl, hr⟩
      have := ihl hl
      have := ihr hr
      simp only [getHeight]
      omega

/-- Under the height-correctness invariant, a tree of positive cached height is
a non-null node. -/
theorem exists_node_of_height_pos {t : Tree} (ht : heightsOk t = true)
    (hpos : 0 < getHeight t) : ∃ v l r h, t = node v l r h := by
  cases t with
  | nil => simp [getHeight] at hpos
  | node v l r h => exact ⟨v, l, r, h, rfl⟩

/-- A tree has an empty in-order traversal exactly when it is the null tree. -/
theorem inOrder_eq_nil_iff {t : Tree} : inOrder t = [] ↔ t = nil := by
  cases t with
  | nil => simp [inOrder]
  | node v l r h => simp [inOrder]

/-- Membership view of the lower-bound checker. -/
theorem allLt_iff {t : Tree} {b : Int} :
    allLt t b = true ↔ ∀ x ∈ inOrder t, x < b := by
  induction t with
  | nil => simp [allLt, inOrder]
  | node v l r h ihl ihr =>
      simp [allLt_node, inOrder, ihl, ihr]
      constructor
      · rintro ⟨h1, h2, h3⟩ x (hx | rfl | hx)
        · exact h2 x hx
        · exact h1
        · exact h3 x hx
      · intro hall
        exact ⟨hall v (Or.inr (Or.inl rfl)),
          fun x hx => hall x (Or.inl hx),
          fun x hx => hall x (Or.inr (Or.inr hx))⟩

/-- Membership view of the upper-bound checker. -/
theorem allGt_iff {t : Tree} {b : Int} :
    allGt t b = true ↔ ∀ x ∈ inOrder t, b < x := by
  induction t with
  | nil => simp [allGt, inOrder]
  | node v l r h ihl ihr =>
      simp [allGt_node, inOrder, ihl, ihr]
      constructor
      · rintro ⟨h1, h2, h3⟩ x (hx | rfl | hx)
        · exact h2 x hx
        · exact h1
        · exact h3 x hx
      · intro hall
        exact ⟨hall v (Or.inr (Or.inl rfl)),
          fun x hx => hall x (Or.inl hx),
          fun x hx => hall x (Or.inr (Or.inr hx))⟩

/-- The search-tree invariant makes the in-order traversal strictly increasing. -/
theorem sorted_inOrder_of_bst {t : Tree} (ht : bstOk t = true) :
    (inOrder t).Sorted (· < ·) := by
  induction t with
  | nil => simp [inOrder]
  | node v l r h ihl ihr =>
      rcases bstOk_node.mp ht with ⟨hlt, hgt, hl, hr⟩
      simp only [inOrder, List.Sorted, List.pairwise_append]
      refine ⟨ihl hl, ?_, ?_⟩
      · exact List.pairwise_cons.mpr ⟨allGt_iff.mp hgt, ihr hr⟩
      · intro a ha b hb
        have hav : a < v := allLt_iff.mp hlt a ha
        rcases List.mem_cons.mp hb with rfl | hb
        · exact hav
        · exact hav.trans (allGt_iff.mp hgt b hb)

/-- Under the search-tree invariant, `contains` decides membership in the
in-order traversal. -/
theorem contains_iff_mem {t : Tree} {x : Int} (ht : bstOk t = true) :
    contains t x = true ↔ x ∈ inOrder t := by
  induction t with
  | nil => simp [contains, inOrder]
  | node v l r h ihl ihr =>
      rcases bstOk_node.mp ht with ⟨hlt, hgt, hl, hr⟩
      simp only [contains, inOrder, List.mem_append, List.mem_cons]
      by_cases h1 : x < v
      · rw [if_pos h1, ihl hl]
        constructor
        · exact fun hx => Or.inl hx
        · rintro (hx | rfl | hx)
          · exact hx
          · omega
          · exact absurd (allGt_iff.mp hgt x hx) (by omega)
      · rw [if_neg h1]
        by_cases h2 : v < x
        · rw [if_pos h2, ihr hr]
          constructor
          · exact fun hx => Or.inr (Or.inr hx)
          · rintro (hx | rfl | hx)
            · exact absurd (allLt_iff.mp hlt x hx) (by omega)
            · omega
            · exact hx
        · rw [if_neg h2]
          simp only [true_iff]
          have : x = v := by omega
          exact Or.inr (Or.inl this)

end AVL


namespace AVL

open Tree

/-- The search-tree invariant is equivalent to strict sortedness of the
in-order traversal. -/
theorem bstOk_iff_sorted {t : Tree} :
    bstOk t = true ↔ (inOrder t).Sorted (· < ·) := by
  constructor
  · exact sorted_inOrder_of_bst
  · intro hs
    induction t with
    | nil => simp [bstOk]
    | node v l r h ihl ihr =>
        simp only [inOrder_node, List.Sorted, List.pairwise_append,
          List.pairwise_cons] at hs
        rcases hs with ⟨sl, ⟨hvr, sr⟩, hcross⟩
        refine bstOk_node.mpr ⟨?_, ?_, ihl sl, ihr sr⟩
        · exact allLt_iff.mpr fun x hx => hcross x hx v (List.mem_cons_self v _)
        · exact allGt_iff.mpr hvr

/-- When the balance factor is already within `[-1, 1]`, `balance` performs no
rotation: it only rewrites the node's height field (step 1 of the procedure). -/
theorem balance_no_rotation {v h : Int} {l r : Tree}
    (hd₁ : -1 ≤ getHeight l - getHeight r) (hd₂ : getHeight l - getHeight r ≤ 1) :
    balance (node v l r h) = node v l r (1 + max (getHeight l) (getHeight r)) := by
  simp only [balance]
  rw [if_neg (by omega), if_neg (by omega)]

/-- On a node already satisfying the height and balance invariants, `balance`
is the identity. -/
theorem balance_id {v h : Int} {l r : Tree}
    (hh : heightsOk (node v l r h) = true) (hb : balancedOk (node v l r h) = true) :
    balance (node v l r h) = node v l r h := by
  rcases heightsOk_node.mp hh with ⟨hhe, _, _⟩
  rcases balancedOk_node.mp hb with ⟨⟨hd₁, hd₂⟩, _, _⟩
  rw [balance_no_rotation hd₁ hd₂, hhe]

/-- Main specification of `balance(node)`: if both subtrees satisfy the height
and balance invariants and the node's own balance factor is within `[-2, 2]`,
the returned subtree satisfies both invariants everywhere, its in-order
traversal is that of the input node, and its height is `max(hl, hr)` or
`1 + max(hl, hr)`. -/
theorem balance_spec {v h : Int} {l r : Tree}
    (hl : heightsOk l = true) (hr : heightsOk r = true)
    (bl : balancedOk l = true) (br : balancedOk r = true)
    (hd₁ : -2 ≤ getHeight l - getHeight r) (hd₂ : getHeight l - getHeight r ≤ 2) :
    heightsOk (balance (node v l r h)) = true ∧
    balancedOk (balance (node v l r h)) = true ∧
    inOrder (balance (node v l r h)) = inOrder l ++ v :: inOrder r ∧
    max (getHeight l) (getHeight r) ≤ getHeight (balance (node v l r h)) ∧
    getHeight (balance (node v l r h)) ≤ 1 + max (getHeight l) (getHeight r) := by
  have hlnn := getHeight_nonneg hl
  have hrnn := getHeight_nonneg hr
  by_cases h1 : getHeight l - getHeight r > 1
  · -- the node is left-heavy by exactly 2
    rcases l with _ | ⟨lv, ll, lr, lh⟩
    · rw [getHeight_nil] at h1; omega
    rcases heightsOk_node.mp hl with ⟨hlh, hll, hlr⟩
    rcases balancedOk_node.mp bl with ⟨⟨hbl₁, hbl₂⟩, bll, blr⟩
    have hllnn := getHeight_nonneg hll
    have hlrnn := getHeight_nonneg hlr
    rw [getHeight_node] at h1 hd₁ hd₂
    by_cases h2 : getHeight ll - getHeight lr < 0
    · -- left-right case: rotate the left child left, then this node right
      rcases lr with _ | ⟨zv, zl, zr, zh⟩
      · rw [getHeight_nil] at h2; omega
      rcases heightsOk_node.mp hlr with ⟨hzh, hzl, hzr⟩
      rcases balancedOk_node.mp blr with ⟨⟨hbz₁, hbz₂⟩, bzl, bzr⟩
      have hzlnn := getHeight_nonneg hzl
      have hzrnn := getHeight_nonneg hzr
      rw [getHeight_node] at h2 hlh hbl₁ hbl₂
      have e : balance (node v (node lv ll (node zv zl zr zh) lh) r h) =
          node zv (node lv ll zl (1 + max (getHeight ll) (getHeight zl)))
            (node v zr r (1 + max (getHeight zr) (getHeight r)))
            (1 + max (1 + max (getHeight ll) (getHeight zl))
              (1 + max (getHeight zr) (getHeight r))) := by
        simp only [balance, getHeight_node]
        rw [if_pos (by omega),
          if_pos (by simp only [getBalance_node, getHeight_node]; omega)]
        simp only [rotateLeft, rotateRight, updateHeight, getHeight_node]
      rw [e]
      refine ⟨?_, ?_, ?_, ?_, ?_⟩
      · simp [heightsOk_node, getHeight_node, hll, hzl, hzr, hr]
      · simp only [balancedOk_node, getHeight_node, bll, bzl, bzr, br, and_true, true_and]
        omega
      · simp [inOrder_node, List.append_assoc]
      · simp only [getHeight_node]; omega
      · simp only [getHeight_node]; omega
    · -- left-left case: single right rotation of this node
      have e : balance (node v (node lv ll lr lh) r h) =
          node lv ll (node v lr r (1 + max (getHeight lr) (getHeight r)))
            (1 + max (getHeight ll) (1 + max (getHeight lr) (getHeight r))) := by
        simp only [balance, getHeight_node]
        rw [if_pos (by omega),
          if_neg (by simp only [getBalance_node, getHeight_node]; omega)]
        simp only [rotateRight, updateHeight, getHeight_node]
      rw [e]
      refine ⟨?_, ?_, ?_, ?_, ?_⟩
      · simp [heightsOk_node, getHeight_node, hll, hlr, hr]
      · simp only [balancedOk_node, getHeight_node, bll, blr, br, and_true, true_and]
        omega
      · simp [inOrder_node, List.append_assoc]
      · simp only [getHeight_node]; omega
      · simp only [getHeight_node]; omega
  · by_cases h3 : getHeight l - getHeight r < -1
    · -- the node is right-heavy by exactly 2
      rcases r with _ | ⟨rv, rl, rr, rh⟩
      · rw [getHeight_nil] at h3; omega
      rcases heightsOk_node.mp hr with ⟨hrh, hrl, hrr⟩
      rcases balancedOk_node.mp br with ⟨⟨hbr₁, hbr₂⟩, brl, brr⟩
      have hrlnn := getHeight_nonneg hrl
      have hrrnn := getHeight_nonneg hrr
      rw [getHeight_node] at h3 hd₁ hd₂
      by_cases h4 : getHeight rl - getHeight rr > 0
      · -- right-left case: rotate the right child right, then this node left
        rcases rl with _ | ⟨zv, zl, zr, zh⟩
        · rw [getHeight_nil] at h4; omega
        rcases heightsOk_node.mp hrl with ⟨hzh, hzl, hzr⟩
        rcases balancedOk_node.mp brl with ⟨⟨hbz₁, hbz₂⟩, bzl, bzr⟩
        have hzlnn := getHeight_nonneg hzl
        have hzrnn := getHeight_nonneg hzr
        rw [getHeight_node] at h4 hrh hbr₁ hbr₂
        have e : balance (node v l (node rv (node zv zl zr zh) rr rh) h) =
            node zv (node v l zl (1 + max (getHeight l) (getHeight zl)))
              (node rv zr rr (1 + max (getHeight zr) (getHeight rr)))
              (1 + max (1 + max (getHeight l) (getHeight zl))
                (1 + max (getHeight zr) (getHeight rr))) := by
          simp only [balance, getHeight_node]
          rw [if_neg (by omega), if_pos (by omega),
            if_pos (by simp only [getBalance_node, getHeight_node]; omega)]
          simp only [rotateLeft, rotateRight, updateHeight, getHeight_node]
        rw [e]
        refine ⟨?_, ?_, ?_, ?_, ?_⟩
        · simp [heightsOk_node, getHeight_node, hl, hzl, hzr, hrr]
        · simp only [balancedOk_node, getHeight_node, bl, bzl, bzr, brr, and_true, true_and]
          omega
        · simp [inOrder_node, List.append_assoc]
        · simp only [getHeight_node]; omega
        · simp only [getHeight_node]; omega
      · -- right-right case: single left rotation of this node
        have e : balance (node v l (node rv rl rr rh) h) =
            node rv (node v l rl (1 + max (getHeight l) (getHeight rl))) rr
              (1 + max (1 + max (getHeight l) (getHeight rl)) (getHeight rr)) := by
          simp only [balance, getHeight_node]
          rw [if_neg (by omega), if_pos (by omega),
            if_neg (by simp only [getBalance_node, getHeight_node]; omega)]
          simp only [rotateLeft, updateHeight, getHeight_node]
        rw [e]
        refine ⟨?_, ?_, ?_, ?_, ?_⟩
        · simp [heightsOk_node, getHeight_node, hl, hrl, hrr]
        · simp only [balancedOk_node, getHeight_node, bl, brl, brr, and_true, true_and]
          omega
        · simp [inOrder_node, List.append_assoc]
        · simp only [getHeight_node]; omega
        · simp only [getHeight_node]; omega
    · -- already balanced: only the height field is rewritten
      rw [balance_no_rotation (by omega) (by omega)]
      refine ⟨?_, ?_, rfl, ?_, ?_⟩
      · simp [heightsOk_node, hl, hr]
      · simp only [balancedOk_node, bl, br, and_true, true_and]
        omega
      · simp only [getHeight_node]; omega
      · simp only [getHeight_node]; omega

end AVL

namespace AVL

open Tree

/-- Rebalancing does not affect the search-tree property: since `balance`
preserves the in-order traversal, the result is order-valid exactly when the
input node was. -/
theorem bstOk_balance_iff {v h : Int} {l r : Tree}
    (hio : inOrder (balance (node v l r h)) = inOrder l ++ v :: inOrder r) :
    (bstOk (balance (node v l r h)) = true ↔ bstOk (node v l r h) = true) := by
  simp only [bstOk_iff_sorted, hio, inOrder_node]

/-- Full inductive specification of the private `insert`: on a tree satisfying
the data-model invariants it preserves all three invariants, grows the height
by at most one (and never shrinks it), and its in-order traversal holds exactly
the old values plus the inserted one. -/
theorem insert_spec (value : Int) : ∀ {t : Tree},
    heightsOk t = true → balancedOk t = true → bstOk t = true →
    heightsOk (insert t value) = true ∧
    balancedOk (insert t value) = true ∧
    bstOk (insert t value) = true ∧
    getHeight t ≤ getHeight (insert t value) ∧
    getHeight (insert t value) ≤ getHeight t + 1 ∧
    ∀ x : Int, x ∈ inOrder (insert t value) ↔ (x ∈ inOrder t ∨ x = value) := by
  intro t
  induction t with
  | nil =>
      intro _ _ _
      refine ⟨rfl, rfl, rfl, ?_, ?_, ?_⟩
      · simp [insert, getHeight_nil, getHeight_node]
      · simp [insert, getHeight_nil, getHeight_node]
      · intro x
        simp [insert, inOrder_node, inOrder_nil]
  | node v l r h ihl ihr =>
      intro hh hb hs
      rcases heightsOk_node.mp hh with ⟨hhe, hhl, hhr⟩
      rcases balancedOk_node.mp hb with ⟨⟨hb₁, hb₂⟩, hbl, hbr⟩
      rcases bstOk_node.mp hs with ⟨hlt, hgt, hsl, hsr⟩
      by_cases hc1 : value < v
      · rcases ihl hhl hbl hsl with ⟨ih1, ih2, ih3, ih4, ih5, ih6⟩
        have hbf₁ : -2 ≤ getHeight (insert l value) - getHeight r := by omega
        have hbf₂ : getHeight (insert l value) - getHeight r ≤ 2 := by omega
        rcases balance_spec (v := v) (h := h) ih1 hhr ih2 hbr hbf₁ hbf₂ with
          ⟨bs1, bs2, bs3, bs4, bs5⟩
        have hbst : bstOk (node v (insert l value) r h) = true := by
          refine bstOk_node.mpr ⟨?_, hgt, ih3, hsr⟩
          refine allLt_iff.mpr fun x hx => ?_
          rcases (ih6 x).mp hx with hx | rfl
          · exact allLt_iff.mp hlt x hx
          · exact hc1
        have hgrow : h ≤ getHeight (balance (node v (insert l value) r h)) ∧
            getHeight (balance (node v (insert l value) r h)) ≤ h + 1 := by
          by_cases hA : getHeight (insert l value) - getHeight r ≤ 1
          · rw [balance_no_rotation (by omega) hA, getHeight_node]
            refine ⟨?_, ?_⟩ <;> omega
          · refine ⟨?_, ?_⟩ <;> omega
        simp only [insert, if_pos hc1]
        refine ⟨bs1, bs2, (bstOk_balance_iff bs3).mpr hbst, ?_, ?_, ?_⟩
        · rw [getHeight_node]; exact hgrow.1
        · rw [getHeight_node]; exact hgrow.2
        · intro x
          rw [bs3]
          simp only [inOrder_node, List.mem_append, List.mem_cons]
          rw [ih6 x]
          tauto
      · by_cases hc2 : v < value
        · rcases ihr hhr hbr hsr with ⟨ih1, ih2, ih3, ih4, ih5, ih6⟩
          have hbf₁ : -2 ≤ getHeight l - getHeight (insert r value) := by omega
          have hbf₂ : getHeight l - getHeight (insert r value) ≤ 2 := by omega
          rcases balance_spec (v := v) (h := h) hhl ih1 hbl ih2 hbf₁ hbf₂ with
            ⟨bs1, bs2, bs3, bs4, bs5⟩
          have hbst : bstOk (node v l (insert r value) h) = true := by
            refine bstOk_node.mpr ⟨hlt, ?_, hsl, ih3⟩
            refine allGt_iff.mpr fun x hx => ?_
            rcases (ih6 x).mp hx with hx | rfl
            · exact allGt_iff.mp hgt x hx
            · exact hc2
          have hgrow : h ≤ getHeight (balance (node v l (insert r value) h)) ∧
              getHeight (balance (node v l (insert r value) h)) ≤ h + 1 := by
            by_cases hA : -1 ≤ getHeight l - getHeight (insert r value)
            · rw [balance_no_rotation hA (by omega), getHeight_node]
              refine ⟨?_, ?_⟩ <;> omega
            · refine ⟨?_, ?_⟩ <;> omega
          simp only [insert, if_neg hc1, if_pos hc2]
          refine ⟨bs1, bs2, (bstOk_balance_iff bs3).mpr hbst, ?_, ?_, ?_⟩
          · rw [getHeight_node]; exact hgrow.1
          · rw [getHeight_node]; exact hgrow.2
          · intro x
            rw [bs3]
            simp only [inOrder_node, List.mem_append, List.mem_cons]
            rw [ih6 x]
            tauto
        · have hveq : value = v := by omega
          simp only [insert, if_neg hc1, if_neg hc2]
          refine ⟨hh, hb, hs, le_refl _, by omega, ?_⟩
          intro x
          simp only [inOrder_node, List.mem_append, List.mem_cons]
          constructor
          · exact fun hx => Or.inl hx
          · rintro (hx | rfl)
            · exact hx
            · exact Or.inr (Or.inl hveq)

end AVL

namespace AVL

open Tree

/-- The loop of `findMin` lands on a non-null node holding the head of the
in-order traversal (the leftmost value). -/
theorem findMin_spec : ∀ {v h : Int} {l r : Tree},
    ∃ mv mh tl, (∃ ml mr, findMin (node v l r h) = node mv ml mr mh) ∧
      inOrder (node v l r h) = mv :: tl := by
  intro v h l r
  induction l generalizing v h r with
  | nil =>
      exact ⟨v, h, inOrder r, ⟨nil, r, rfl⟩, by simp [inOrder_node, inOrder_nil]⟩
  | node lv ll lr lh ihl _ =>
      rcases @ihl lv lh lr with ⟨mv, mh, tl, ⟨ml, mr, hfm⟩, hio⟩
      refine ⟨mv, mh, tl ++ v :: inOrder r, ⟨ml, mr, ?_⟩, ?_⟩
      · simp only [findMin]
        exact hfm
      · rw [inOrder_node, hio]
        simp

/-- Full inductive specification of `removeMin` on a non-null subtree
satisfying the height and balance invariants: the invariants are preserved, the
in-order traversal loses exactly its first (minimal) element, and the height
shrinks by at most one. -/
theorem removeMin_spec : ∀ {v h : Int} {l r : Tree},
    heightsOk (node v l r h) = true → balancedOk (node v l r h) = true →
    heightsOk (removeMin (node v l r h)) = true ∧
    balancedOk (removeMin (node v l r h)) = true ∧
    inOrder (removeMin (node v l r h)) = (inOrder (node v l r h)).tail ∧
    getHeight (node v l r h) - 1 ≤ getHeight (removeMin (node v l r h)) ∧
    getHeight (removeMin (node v l r h)) ≤ getHeight (node v l r h) := by
  intro v h l r
  induction l generalizing v h r with
  | nil =>
      intro hh hb
      rcases heightsOk_node.mp hh with ⟨hhe, _, hhr⟩
      have hrnn := getHeight_nonneg hhr
      rcases balancedOk_node.mp hb with ⟨⟨hb₁, hb₂⟩, _, hbr⟩
      rw [getHeight_nil] at hhe hb₁ hb₂
      refine ⟨hhr, hbr, ?_, ?_, ?_⟩
      · simp [removeMin, inOrder_node, inOrder_nil]
      · simp only [removeMin, getHeight_node]; omega
      · simp only [removeMin, getHeight_node]; omega
  | node lv ll lr lh ihl _ =>
      intro hh hb
      rcases heightsOk_node.mp hh with ⟨hhe, hhl, hhr⟩
      rcases balancedOk_node.mp hb with ⟨⟨hb₁, hb₂⟩, hbl, hbr⟩
      have hrnn := getHeight_nonneg hhr
      have hlnn := getHeight_nonneg hhl
      rw [getHeight_node] at hhe hb₁ hb₂
      rcases @ihl lv lh lr hhl hbl with ⟨m1, m2, m3, m4, m5⟩
      rw [getHeight_node] at m4 m5
      have hbf₁ : -2 ≤ getHeight (removeMin (node lv ll lr lh)) - getHeight r := by omega
      have hbf₂ : getHeight (removeMin (node lv ll lr lh)) - getHeight r ≤ 2 := by omega
      rcases balance_spec (v := v) (h := h) m1 hhr m2 hbr hbf₁ hbf₂ with
        ⟨bs1, bs2, bs3, bs4, bs5⟩
      have hred : removeMin (node v (node lv ll lr lh) r h) =
          balance (node v (removeMin (node lv ll lr lh)) r h) := rfl
      rw [hred]
      refine ⟨bs1, bs2, ?_, ?_, ?_⟩
      · obtain ⟨a, as, hL⟩ : ∃ a as, inOrder (node lv ll lr lh) = a :: as := by
          cases hL : inOrder (node lv ll lr lh) with
          | nil => exact absurd (inOrder_eq_nil_iff.mp hL) (by simp)
          | cons a as => exact ⟨a, as, rfl⟩
        rw [bs3, m3, hL, inOrder_node, hL]
        simp
      · rw [getHeight_node]
        by_cases hA : -1 ≤ getHeight (removeMin (node lv ll lr lh)) - getHeight r
        · rw [balance_no_rotation hA (by omega), getHeight_node]
          omega
        · omega
      · rw [getHeight_node]
        by_cases hA : -1 ≤ getHeight (removeMin (node lv ll lr lh)) - getHeight r
        · rw [balance_no_rotation hA (by omega), getHeight_node]
          omega
        · omega

end AVL

namespace AVL

open Tree

/-- Full inductive specification of the private `remove`: on a tree satisfying
the data-model invariants it preserves all three invariants, shrinks the height
by at most one (and never grows it), and its in-order traversal holds exactly
the old values except the removed one. -/
theorem remove_spec (value : Int) : ∀ {t : Tree},
    heightsOk t = true → balancedOk t = true → bstOk t = true →
    heightsOk (remove t value) = true ∧
    balancedOk (remove t value) = true ∧
    bstOk (remove t value) = true ∧
    getHeight t - 1 ≤ getHeight (remove t value) ∧
    getHeight (remove t value) ≤ getHeight t ∧
    ∀ x : Int, x ∈ inOrder (remove t value) ↔ (x ∈ inOrder t ∧ x ≠ value) := by
  intro t
  induction t with
  | nil =>
      intro _ _ _
      refine ⟨rfl, rfl, rfl, by simp [remove, getHeight_nil], by simp [remove, getHeight_nil], ?_⟩
      intro x
      simp [remove, inOrder_nil]
  | node v l r h ihl ihr =>
      intro hh hb hs
      rcases heightsOk_node.mp hh with ⟨hhe, hhl, hhr⟩
      rcases balancedOk_node.mp hb with ⟨⟨hb₁, hb₂⟩, hbl, hbr⟩
      rcases bstOk_node.mp hs with ⟨hlt, hgt, hsl, hsr⟩
      have hlnn := getHeight_nonneg hhl
      have hrnn := getHeight_nonneg hhr
      by_cases hc1 : value < v
      · rcases ihl hhl hbl hsl with ⟨ih1, ih2, ih3, ih4, ih5, ih6⟩
        have hbf₁ : -2 ≤ getHeight (remove l value) - getHeight r := by omega
        have hbf₂ : getHeight (remove l value) - getHeight r ≤ 2 := by omega
        rcases balance_spec (v := v) (h := h) ih1 hhr ih2 hbr hbf₁ hbf₂ with
          ⟨bs1, bs2, bs3, bs4, bs5⟩
        have hbst : bstOk (node v (remove l value) r h) = true := by
          refine bstOk_node.mpr ⟨?_, hgt, ih3, hsr⟩
          refine allLt_iff.mpr fun x hx => ?_
          exact allLt_iff.mp hlt x ((ih6 x).mp hx).1
        have hht : h - 1 ≤ getHeight (balance (node v (remove l value) r h)) ∧
            getHeight (balance (node v (remove l value) r h)) ≤ h := by
          by_cases hA : -1 ≤ getHeight (remove l value) - getHeight r
          · rw [balance_no_rotation hA (by omega), getHeight_node]
            refine ⟨?_, ?_⟩ <;> omega
          · refine ⟨?_, ?_⟩ <;> omega
        simp only [remove, if_pos hc1]
        refine ⟨bs1, bs2, (bstOk_balance_iff bs3).mpr hbst, ?_, ?_, ?_⟩
        · rw [getHeight_node]; exact hht.1
        · rw [getHeight_node]; exact hht.2
        · intro x
          rw [bs3]
          simp only [inOrder_node, List.mem_append, List.mem_cons]
          rw [ih6 x]
          constructor
          · rintro (⟨hx, hne⟩ | rfl | hx)
            · exact ⟨Or.inl hx, hne⟩
            · exact ⟨Or.inr (Or.inl rfl), by omega⟩
            · refine ⟨Or.inr (Or.inr hx), ?_⟩
              have := allGt_iff.mp hgt x hx
              omega
          · rintro ⟨hx | rfl | hx, hne⟩
            · exact Or.inl ⟨hx, hne⟩
            · exact Or.inr (Or.inl rfl)
            · exact Or.inr (Or.inr hx)
      · by_cases hc2 : v < value
        · rcases ihr hhr hbr hsr with ⟨ih1, ih2, ih3, ih4, ih5, ih6⟩
          have hbf₁ : -2 ≤ getHeight l - getHeight (remove r value) := by omega
          have hbf₂ : getHeight l - getHeight (remove r value) ≤ 2 := by omega
          rcases balance_spec (v := v) (h := h) hhl ih1 hbl ih2 hbf₁ hbf₂ with
            ⟨bs1, bs2, bs3, bs4, bs5⟩
          have hbst : bstOk (node v l (remove r value) h) = true := by
            refine bstOk_node.mpr ⟨hlt, ?_, hsl, ih3⟩
            refine allGt_iff.mpr fun x hx => ?_
            exact allGt_iff.mp hgt x ((ih6 x).mp hx).1
          have hht : h - 1 ≤ getHeight (balance (node v l (remove r value) h)) ∧
              getHeight (balance (node v l (remove r value) h)) ≤ h := by
            by_cases hA : getHeight l - getHeight (remove r value) ≤ 1
            · rw [balance_no_rotation (by omega) hA, getHeight_node]
              refine ⟨?_, ?_⟩ <;> omega
            · refine ⟨?_, ?_⟩ <;> omega
          simp only [remove, if_neg hc1, if_pos hc2]
          refine ⟨bs1, bs2, (bstOk_balance_iff bs3).mpr hbst, ?_, ?_, ?_⟩
          · rw [getHeight_node]; exact hht.1
          · rw [getHeight_node]; exact hht.2
          · intro x
            rw [bs3]
            simp only [inOrder_node, List.mem_append, List.mem_cons]
            rw [ih6 x]
            constructor
            · rintro (hx | rfl | ⟨hx, hne⟩)
              · refine ⟨Or.inl hx, ?_⟩
                have := allLt_iff.mp hlt x hx
                omega
              · exact ⟨Or.inr (Or.inl rfl), by omega⟩
              · exact ⟨Or.inr (Or.inr hx), hne⟩
            · rintro ⟨hx | rfl | hx, hne⟩
              · exact Or.inl hx
              · exact Or.inr (Or.inl rfl)
              · exact Or.inr (Or.inr ⟨hx, hne⟩)
        · have hveq : value = v := by omega
          subst hveq
          rcases r with _ | ⟨rv, rl, rr, rh⟩
          · -- matched node with absent right child: return the left child
            have hred : remove (node value l nil h) value = l := by
              simp only [remove, if_neg hc1, if_neg hc2]
            rw [hred]
            rw [getHeight_nil] at hhe hb₁ hb₂
            refine ⟨hhl, hbl, hsl, by rw [getHeight_node]; omega,
              by rw [getHeight_node]; omega, ?_⟩
            intro x
            simp only [inOrder_node, inOrder_nil, List.mem_append, List.mem_cons,
              List.not_mem_nil, or_false]
            constructor
            · intro hx
              have := allLt_iff.mp hlt x hx
              exact ⟨Or.inl hx, by omega⟩
            · rintro ⟨hx | rfl, hne⟩
              · exact hx
              · exact absurd rfl hne
          · -- matched node with a right child: splice in the successor
            rcases @findMin_spec rv rh rl rr with ⟨mv, mh, tl, ⟨ml, mr, hfm⟩, hio⟩
            have hred : remove (node value l (node rv rl rr rh) h) value =
                balance (node mv l (removeMin (node rv rl rr rh)) mh) := by
              simp only [remove, if_neg hc1, if_neg hc2]
              rw [hfm]
            rcases removeMin_spec hhr hbr with ⟨m1, m2, m3, m4, m5⟩
            rw [getHeight_node] at hhe hb₁ hb₂ m4 m5
            have hsorted := sorted_inOrder_of_bst hsr
            rw [hio, List.sorted_cons] at hsorted
            have htl : inOrder (removeMin (node rv rl rr rh)) = tl := by
              rw [m3, hio]
              rfl
            have hvmv : value < mv := by
              refine allGt_iff.mp hgt mv ?_
              rw [hio]
              exact List.mem_cons_self _ _
            have hbf₁ : -2 ≤ getHeight l - getHeight (removeMin (node rv rl rr rh)) := by
              omega
            have hbf₂ : getHeight l - getHeight (removeMin (node rv rl rr rh)) ≤ 2 := by
              omega
            rcases balance_spec (v := mv) (h := mh) hhl m1 hbl m2 hbf₁ hbf₂ with
              ⟨bs1, bs2, bs3, bs4, bs5⟩
            have hbst : bstOk (node mv l (removeMin (node rv rl rr rh)) mh) = true := by
              refine bstOk_node.mpr ⟨?_, ?_, hsl, ?_⟩
              · refine allLt_iff.mpr fun x hx => ?_
                have := allLt_iff.mp hlt x hx
                omega
              · refine allGt_iff.mpr fun x hx => ?_
                rw [htl] at hx
                exact hsorted.1 x hx
              · rw [bstOk_iff_sorted, htl]
                exact hsorted.2
            have hht : h - 1 ≤ getHeight (balance (node mv l (removeMin (node rv rl rr rh)) mh)) ∧
                getHeight (balance (node mv l (removeMin (node rv rl rr rh)) mh)) ≤ h := by
              by_cases hA : getHeight l - getHeight (removeMin (node rv rl rr rh)) ≤ 1
              · rw [balance_no_rotation (by omega) hA, getHeight_node]
                refine ⟨?_, ?_⟩ <;> omega
              · refine ⟨?_, ?_⟩ <;> omega
            rw [hred]
            refine ⟨bs1, bs2, (bstOk_balance_iff bs3).mpr hbst, ?_, ?_, ?_⟩
            · rw [getHeight_node]; exact hht.1
            · rw [getHeight_node]; exact hht.2
            · intro x
              rw [bs3, htl]
              simp only [inOrder_node, List.mem_append, List.mem_cons, hio]
              constructor
              · rintro (hx | rfl | hx)
                · have := allLt_iff.mp hlt x hx
                  exact ⟨Or.inl hx, by omega⟩
                · exact ⟨Or.inr (Or.inr (Or.inl rfl)), by omega⟩
                · have : value < x := hvmv.trans (hsorted.1 x hx)
                  exact ⟨Or.inr (Or.inr (Or.inr hx)), by omega⟩
              · rintro ⟨hx | rfl | rfl | hx, hne⟩
                · exact Or.inl hx
                · exact absurd rfl hne
                · exact Or.inr (Or.inl rfl)
                · exact Or.inr (Or.inr hx)

end AVL

namespace AVL

open Tree

/-- Unfolding of the combined data-model invariant. -/
theorem invariantOk_iff {t : Tree} :
    invariantOk t = true ↔
      heightsOk t = true ∧ balancedOk t = true ∧ bstOk t = true := by
  simp [invariantOk, and_assoc]

/-- Every single public call preserves the data-model invariant. -/
theorem invariantOk_applyOp {t : Tree} (ht : invariantOk t = true) (op : Op) :
    invariantOk (applyOp t op) = true := by
  rcases invariantOk_iff.mp ht with ⟨hh, hb, hs⟩
  cases op with
  | ins v =>
      rcases insert_spec v hh hb hs with ⟨i1, i2, i3, _⟩
      exact invariantOk_iff.mpr ⟨i1, i2, i3⟩
  | del v =>
      rcases remove_spec v hh hb hs with ⟨i1, i2, i3, _⟩
      exact invariantOk_iff.mpr ⟨i1, i2, i3⟩

/-- The data-model invariant holds after any sequence of public calls on an
initially empty tree. -/
theorem invariantOk_runOps (ops : List Op) : invariantOk (runOps ops) = true := by
  suffices hgen : ∀ t : Tree, invariantOk t = true →
      invariantOk (ops.foldl applyOp t) = true from hgen nil rfl
  induction ops with
  | nil => exact fun t ht => ht
  | cons op ops ih =>
      intro t ht
      exact ih (applyOp t op) (invariantOk_applyOp ht op)

/-- Inserting a whole list of values into an invariant-satisfying tree keeps
the invariants and adds exactly the listed values to the in-order traversal. -/
theorem insertAll_spec (xs : List Int) : ∀ {t : Tree},
    heightsOk t = true → balancedOk t = true → bstOk t = true →
    heightsOk (xs.foldl insert t) = true ∧
    balancedOk (xs.foldl insert t) = true ∧
    bstOk (xs.foldl insert t) = true ∧
    ∀ x : Int, x ∈ inOrder (xs.foldl insert t) ↔ (x ∈ inOrder t ∨ x ∈ xs) := by
  induction xs with
  | nil =>
      intro t hh hb hs
      exact ⟨hh, hb, hs, fun x => by simp⟩
  | cons a as ih =>
      intro t hh hb hs
      rcases insert_spec a hh hb hs with ⟨i1, i2, i3, _, _, i6⟩
      rcases ih i1 i2 i3 with ⟨j1, j2, j3, j4⟩
      refine ⟨j1, j2, j3, fun x => ?_⟩
      rw [List.foldl_cons, j4 x, i6 x]
      simp only [List.mem_cons]
      tauto

/-- Two Booleans agreeing as propositions are equal. -/
theorem bool_eq_of_iff {a b : Bool} (h : a = true ↔ b = true) : a = b := by
  cases a <;> cases b <;> simp_all

/-- On a tree whose cached heights and balance factors are valid, inserting a
value that `contains` already finds returns the very same tree: the recursion
stops at the equal node and every `balance` call on the return path is the
identity. -/
theorem insert_of_contains {value : Int} : ∀ {t : Tree},
    heightsOk t = true → balancedOk t = true → contains t value = true →
    insert t value = t := by
  intro t
  induction t with
  | nil => intro _ _ hc; exact absurd hc (by simp [contains])
  | node v l r h ihl ihr =>
      intro hh hb hc
      rcases heightsOk_node.mp hh with ⟨hhe, hhl, hhr⟩
      rcases balancedOk_node.mp hb with ⟨⟨hb₁, hb₂⟩, hbl, hbr⟩
      by_cases hc1 : value < v
      · simp only [contains, if_pos hc1] at hc
        simp only [insert, if_pos hc1]
        rw [ihl hhl hbl hc, balance_id hh hb]
      · by_cases hc2 : v < value
        · simp only [contains, if_neg hc1, if_pos hc2] at hc
          simp only [insert, if_neg hc1, if_pos hc2]
          rw [ihr hhr hbr hc, balance_id hh hb]
        · simp only [insert, if_neg hc1, if_neg hc2]

/-- On a tree whose cached heights and balance factors are valid, removing a
value that `contains` does not find returns the very same tree: the recursion
bottoms out at a null child and every `balance` call on the return path is the
identity. -/
theorem remove_of_not_contains {value : Int} : ∀ {t : Tree},
    heightsOk t = true → balancedOk t = true → contains t value = false →
    remove t value = t := by
  intro t
  induction t with
  | nil => intro _ _ _; rfl
  | node v l r h ihl ihr =>
      intro hh hb hc
      rcases heightsOk_node.mp hh with ⟨hhe, hhl, hhr⟩
      rcases balancedOk_node.mp hb with ⟨⟨hb₁, hb₂⟩, hbl, hbr⟩
      by_cases hc1 : value < v
      · simp only [contains, if_pos hc1] at hc
        simp only [remove, if_pos hc1]
        rw [ihl hhl hbl hc, balance_id hh hb]
      · by_cases hc2 : v < value
        · simp only [contains, if_neg hc1, if_pos hc2] at hc
          simp only [remove, if_neg hc1, if_pos hc2]
          rw [ihr hhr hbr hc, balance_id hh hb]
        · simp only [contains, if_neg hc1, if_neg hc2] at hc
          exact absurd hc (by simp)

end AVL

namespace AVL

open Tree


/-- Under the caller-guaranteed precondition (valid subtrees, balance factor in
`[-2, 2]`), the Option-valued `balance` never fails: every rotation it invokes
finds the child it dereferences, and the result agrees with the total model. -/
theorem balanceO_eq {v h : Int} {l r : Tree}
    (hl : heightsOk l = true) (hr : heightsOk r = true)
    (bl : balancedOk l = true) (br : balancedOk r = true)
    (hd₁ : -2 ≤ getHeight l - getHeight r) (hd₂ : getHeight l - getHeight r ≤ 2) :
    balanceO (node v l r h) = some (balance (node v l r h)) := by
  have hlnn := getHeight_nonneg hl
  have hrnn := getHeight_nonneg hr
  by_cases h1 : getHeight l - getHeight r > 1
  · rcases l with _ | ⟨lv, ll, lr, lh⟩
    · rw [getHeight_nil] at h1; omega
    rw [getHeight_node] at h1
    by_cases h2 : getHeight ll - getHeight lr < 0
    · rcases heightsOk_node.mp hl with ⟨hlh, hll, hlr⟩
      have hllnn := getHeight_nonneg hll
      rcases lr with _ | ⟨zv, zl, zr, zh⟩
      · rw [getHeight_nil] at h2; omega
      rw [getHeight_node] at h2
      simp only [balanceO, balance, getBalance_node, getHeight_node, if_pos h1,
        if_pos h2, rotateLeftO, rotateLeft, rotateRightO, rotateRight, updateHeight]
    · simp only [balanceO, balance, getBalance_node, getHeight_node, if_pos h1,
        if_neg h2, rotateRightO, rotateRight, updateHeight]
  · by_cases h3 : getHeight l - getHeight r < -1
    · rcases r with _ | ⟨rv, rl, rr, rh⟩
      · rw [getHeight_nil] at h3; omega
      rw [getHeight_node] at h3
      have h1n : ¬ getHeight l - rh > 1 := by rw [getHeight_node] at h1; exact h1
      by_cases h4 : getHeight rl - getHeight rr > 0
      · rcases heightsOk_node.mp hr with ⟨hrh, hrl, hrr⟩
        have hrrnn := getHeight_nonneg hrr
        rcases rl with _ | ⟨zv, zl, zr, zh⟩
        · rw [getHeight_nil] at h4; omega
        rw [getHeight_node] at h4
        simp only [balanceO, balance, getBalance_node, getHeight_node, if_neg h1n,
          if_pos h3, if_pos h4, rotateRightO, rotateRight, rotateLeftO, rotateLeft,
          updateHeight]
      · simp only [balanceO, balance, getBalance_node, getHeight_node, if_neg h1n,
          if_pos h3, if_neg h4, rotateLeftO, rotateLeft, updateHeight]
    · rw [balance_no_rotation (by omega) (by omega)]
      simp only [balanceO]
      rw [if_neg (by omega), if_neg (by omega)]

/-- On a non-null node satisfying the height and balance invariants, the
Option-valued `removeMin` never dereferences an absent node and agrees with
the total model. -/
theorem removeMinO_eq : ∀ {v h : Int} {l r : Tree},
    heightsOk (node v l r h) = true → balancedOk (node v l r h) = true →
    removeMinO (node v l r h) = some (removeMin (node v l r h)) := by
  intro v h l r
  induction l generalizing v h r with
  | nil => intro _ _; rfl
  | node lv ll lr lh ihl _ =>
      intro hh hb
      rcases heightsOk_node.mp hh with ⟨hhe, hhl, hhr⟩
      rcases balancedOk_node.mp hb with ⟨⟨hb₁, hb₂⟩, hbl, hbr⟩
      rcases removeMin_spec hhl hbl with ⟨m1, m2, _, m4, m5⟩
      rw [getHeight_node] at hb₁ hb₂ m4 m5
      have hred : removeMinO (node v (node lv ll lr lh) r h) =
          match removeMinO (node lv ll lr lh) with
          | some l2 => balanceO (node v l2 r h)
          | none => none := rfl
      rw [hred, ihl hhl hbl]
      show balanceO (node v (removeMin (node lv ll lr lh)) r h) =
        some (removeMin (node v (node lv ll lr lh) r h))
      rw [balanceO_eq m1 hhr m2 hbr (by omega) (by omega)]
      rfl

/-- On a tree satisfying the data-model invariants, the Option-valued `remove`
never dereferences an absent node and agrees with the total model. -/
theorem removeO_eq (value : Int) : ∀ {t : Tree},
    heightsOk t = true → balancedOk t = true → bstOk t = true →
    removeO t value = some (remove t value) := by
  intro t
  induction t with
  | nil => intro _ _ _; rfl
  | node v l r h ihl ihr =>
      intro hh hb hs
      rcases heightsOk_node.mp hh with ⟨hhe, hhl, hhr⟩
      rcases balancedOk_node.mp hb with ⟨⟨hb₁, hb₂⟩, hbl, hbr⟩
      rcases bstOk_node.mp hs with ⟨hlt, hgt, hsl, hsr⟩
      by_cases hc1 : value < v
      · rcases remove_spec value hhl hbl hsl with ⟨r1, r2, _, r4, r5, _⟩
        simp only [removeO, remove, if_pos hc1]
        rw [ihl hhl hbl hsl]
        show balanceO (node v (remove l value) r h) =
          some (balance (node v (remove l value) r h))
        exact balanceO_eq r1 hhr r2 hbr (by omega) (by omega)
      · by_cases hc2 : v < value
        · rcases remove_spec value hhr hbr hsr with ⟨r1, r2, _, r4, r5, _⟩
          simp only [removeO, remove, if_neg hc1, if_pos hc2]
          rw [ihr hhr hbr hsr]
          show balanceO (node v l (remove r value) h) =
            some (balance (node v l (remove r value) h))
          exact balanceO_eq hhl r1 hbl r2 (by omega) (by omega)
        · rcases r with _ | ⟨rv, rl, rr, rh⟩
          · simp only [removeO, remove, if_neg hc1, if_neg hc2]
          · rcases @findMin_spec rv rh rl rr with ⟨mv, mh, tl, ⟨ml, mr, hfm⟩, hio⟩
            rcases removeMin_spec hhr hbr with ⟨m1, m2, _, m4, m5⟩
            rw [getHeight_node] at hb₁ hb₂ m4 m5
            simp only [removeO, remove, if_neg hc1, if_neg hc2]
            rw [hfm, removeMinO_eq hhr hbr]
            show balanceO (node mv l (removeMin (node rv rl rr rh)) mh) =
              some (balance (node mv l (removeMin (node rv rl rr rh)) mh))
            exact balanceO_eq hhl m1 hbl m2 (by omega) (by omega)

end AVL

namespace AVL

open Tree

/-- C1: after every finite sequence of public insert/remove calls on an
initially empty tree, every node's balance factor is in `[-1, 1]`, every node's
cached height field equals `1 + max(height(left), height(right))` with an
absent child counted as height 0, and the in-order traversal is strictly
increasing. -/
theorem c1_invariants_after_any_op_sequence (ops : List Op) :
    heightsOk (runOps ops) = true ∧
    balancedOk (runOps ops) = true ∧
    (inOrder (runOps ops)).Sorted (· < ·) := by
  rcases invariantOk_iff.mp (invariantOk_runOps ops) with ⟨h1, h2, h3⟩
  exact ⟨h1, h2, sorted_inOrder_of_bst h3⟩

/-- C2: on a node whose subtrees satisfy the AVL balance and height-cache
invariants and whose recomputed balance factor lies in `[-2, 2]`, `balance`
returns a subtree satisfying both invariants everywhere, with the same
in-order value sequence; and when the balance factor is already in `[-1, 1]`
the node is returned unchanged apart from the step-1 height recomputation
(no rotation is performed). -/
theorem c2_balance_contract {v h : Int} {l r : Tree}
    (hl : heightsOk l = true) (bl : balancedOk l = true)
    (hr : heightsOk r = true) (br : balancedOk r = true)
    (hd₁ : -2 ≤ getHeight l - getHeight r) (hd₂ : getHeight l - getHeight r ≤ 2) :
    heightsOk (balance (node v l r h)) = true ∧
    balancedOk (balance (node v l r h)) = true ∧
    inOrder (balance (node v l r h)) = inOrder (node v l r h) ∧
    (-1 ≤ getHeight l - getHeight r → getHeight l - getHeight r ≤ 1 →
      balance (node v l r h) = updateHeight (node v l r h)) := by
  rcases balance_spec (v := v) (h := h) hl hr bl br hd₁ hd₂ with ⟨b1, b2, b3, _, _⟩
  refine ⟨b1, b2, b3.trans inOrder_node.symm, fun hx₁ hx₂ => ?_⟩
  rw [balance_no_rotation hx₁ hx₂]
  rfl

/-- Witness for C2 at a concrete left-heavy node (balance factor 2, stale
root height field 77). -/
theorem c2_balance_contract_witness :
    heightsOk (balance (node 4 (node 2 (node 1 nil nil 1) nil 2) nil 77)) = true ∧
    balancedOk (balance (node 4 (node 2 (node 1 nil nil 1) nil 2) nil 77)) = true ∧
    inOrder (balance (node 4 (node 2 (node 1 nil nil 1) nil 2) nil 77)) =
      inOrder (node 4 (node 2 (node 1 nil nil 1) nil 2) nil 77) ∧
    (-1 ≤ getHeight (node 2 (node 1 nil nil 1) nil 2) - getHeight nil →
      getHeight (node 2 (node 1 nil nil 1) nil 2) - getHeight nil ≤ 1 →
      balance (node 4 (node 2 (node 1 nil nil 1) nil 2) nil 77) =
        updateHeight (node 4 (node 2 (node 1 nil nil 1) nil 2) nil 77)) :=
  c2_balance_contract (by decide) (by decide) (by decide) (by decide)
    (by decide) (by decide)

/-- C3: inserting all elements of a duplicate-free list, in the list's order,
into an initially empty tree and then taking the in-order traversal yields
exactly the ascending sorting of that list. -/
theorem c3_round_trip (xs : List Int) (hnd : xs.Nodup) :
    inOrder (xs.foldl insert nil) = xs.insertionSort (· ≤ ·) := by
  rcases insertAll_spec xs (t := nil) rfl rfl rfl with ⟨_, _, hbst, hmem⟩
  have hsortLt : (inOrder (xs.foldl insert nil)).Sorted (· < ·) :=
    sorted_inOrder_of_bst hbst
  have hnodupT : (inOrder (xs.foldl insert nil)).Nodup :=
    List.Pairwise.imp (fun hab => ne_of_lt hab) hsortLt
  have hperm : (inOrder (xs.foldl insert nil)).Perm xs := by
    refine (List.perm_ext_iff_of_nodup hnodupT hnd).mpr fun a => ?_
    rw [hmem a]
    simp [inOrder_nil]
  have hperm2 : (inOrder (xs.foldl insert nil)).Perm (xs.insertionSort (· ≤ ·)) :=
    hperm.trans (List.perm_insertionSort (· ≤ ·) xs).symm
  exact List.eq_of_perm_of_sorted hperm2
    (List.Pairwise.imp (fun hab => le_of_lt hab) hsortLt)
    (List.sorted_insertionSort (· ≤ ·) xs)

/-- Witness for C3 at the concrete list [3, 1, 2]. -/
theorem c3_round_trip_witness :
    inOrder ([3, 1, 2].foldl insert nil) = [3, 1, 2].insertionSort (· ≤ ·) :=
  c3_round_trip [3, 1, 2] (by decide)

/-- C4: on a tree satisfying the data-model invariants, after `remove v` the
value `v` is no longer found by `contains`, while `contains` answers exactly
as before for every other value. -/
theorem c4_remove_contains {t : Tree} (hh : heightsOk t = true)
    (hb : balancedOk t = true) (hs : bstOk t = true) (v : Int) :
    contains (remove t v) v = false ∧
    ∀ w : Int, w ≠ v → contains (remove t v) w = contains t w := by
  rcases remove_spec v hh hb hs with ⟨_, _, r3, _, _, r6⟩
  constructor
  · cases hcv : contains (remove t v) v with
    | false => rfl
    | true => exact absurd ((r6 v).mp ((contains_iff_mem r3).mp hcv)).2 (by simp)
  · intro w hw
    refine bool_eq_of_iff ?_
    rw [contains_iff_mem r3, contains_iff_mem hs, r6 w]
    exact ⟨fun hx => hx.1, fun hx => ⟨hx, hw⟩⟩

/-- Witness for C4 on the three-node tree {1, 2, 3}, removing the root 2. -/
theorem c4_remove_contains_witness :
    contains (remove (node 2 (node 1 nil nil 1) (node 3 nil nil 1) 2) 2) 2 = false ∧
    contains (remove (node 2 (node 1 nil nil 1) (node 3 nil nil 1) 2) 2) 1 =
      contains (node 2 (node 1 nil nil 1) (node 3 nil nil 1) 2) 1 ∧
    contains (remove (node 2 (node 1 nil nil 1) (node 3 nil nil 1) 2) 2) 3 =
      contains (node 2 (node 1 nil nil 1) (node 3 nil nil 1) 2) 3 :=
  ⟨(c4_remove_contains (by decide) (by decide) (by decide) 2).1,
    (c4_remove_contains (by decide) (by decide) (by decide) 2).2 1 (by decide),
    (c4_remove_contains (by decide) (by decide) (by decide) 2).2 3 (by decide)⟩

/-- C5: rotate-right on a node `y` with left child `x` returns `x` as the new
root, installs `x`'s former right child as `y`'s new left child and `y` as
`x`'s right child, recomputes exactly the two relinked heights child-first
(the new root's height is computed from `y`'s already-updated height), keeps
every other subtree and cached height untouched (they appear verbatim in the
result), preserves the in-order sequence, and neither creates nor destroys a
node; rotate-left is the exact mirror. -/
theorem c5_rotation_structure (yv xv yh xh : Int) (xl xr yr : Tree) :
    (rotateRight (node yv (node xv xl xr xh) yr yh) =
      node xv xl (node yv xr yr (1 + max (getHeight xr) (getHeight yr)))
        (1 + max (getHeight xl) (1 + max (getHeight xr) (getHeight yr)))) ∧
    inOrder (rotateRight (node yv (node xv xl xr xh) yr yh)) =
      inOrder (node yv (node xv xl xr xh) yr yh) ∧
    size (rotateRight (node yv (node xv xl xr xh) yr yh)) =
      size (node yv (node xv xl xr xh) yr yh) ∧
    (rotateLeft (node xv xl (node yv yl' yr' yh') xh) =
      node yv (node xv xl yl' (1 + max (getHeight xl) (getHeight yl'))) yr'
        (1 + max (1 + max (getHeight xl) (getHeight yl')) (getHeight yr'))) ∧
    inOrder (rotateLeft (node xv xl (node yv yl' yr' yh') xh)) =
      inOrder (node xv xl (node yv yl' yr' yh') xh) ∧
    size (rotateLeft (node xv xl (node yv yl' yr' yh') xh)) =
      size (node xv xl (node yv yl' yr' yh') xh) := by
  refine ⟨rfl, ?_, ?_, rfl, ?_, ?_⟩
  · simp [rotateRight, updateHeight, inOrder_node, List.append_assoc]
  · simp only [rotateRight, updateHeight, size]
    omega
  · simp [rotateLeft, updateHeight, inOrder_node, List.append_assoc]
  · simp only [rotateLeft, updateHeight, size]
    omega

/-- C7: on a tree satisfying the data-model invariants, inserting a value the
tree already contains returns the identical tree, so `contains` and the
in-order traversal are unchanged after the second insertion. -/
theorem c7_duplicate_insert_identity {t : Tree} (hh : heightsOk t = true)
    (hb : balancedOk t = true) {v : Int} (hc : contains t v = true) :
    insert t v = t ∧
    inOrder (insert t v) = inOrder t ∧
    ∀ w : Int, contains (insert t v) w = contains t w := by
  have he := insert_of_contains hh hb hc
  exact ⟨he, by rw [he], fun w => by rw [he]⟩

/-- Witness for C7 on the three-node tree {1, 2, 3}, re-inserting 3. -/
theorem c7_duplicate_insert_identity_witness :
    insert (node 2 (node 1 nil nil 1) (node 3 nil nil 1) 2) 3 =
      node 2 (node 1 nil nil 1) (node 3 nil nil 1) 2 ∧
    inOrder (insert (node 2 (node 1 nil nil 1) (node 3 nil nil 1) 2) 3) =
      inOrder (node 2 (node 1 nil nil 1) (node 3 nil nil 1) 2) ∧
    ∀ w : Int, contains (insert (node 2 (node 1 nil nil 1) (node 3 nil nil 1) 2) 3) w =
      contains (node 2 (node 1 nil nil 1) (node 3 nil nil 1) 2) w :=
  c7_duplicate_insert_identity (by decide) (by decide) (by decide)

/-- C8: the concrete scenario of the spec: inserting 10, 20, 30, 40, 50, 25 in
that order yields in-order traversal [10, 20, 25, 30, 40, 50] with root value
30; after removing 30, `contains 30` is false, the traversal is
[10, 20, 25, 40, 50], and the root's balance factor lies in {-1, 0, 1}. -/
theorem c8_concrete_scenario :
    inOrder (runOps [Op.ins 10, Op.ins 20, Op.ins 30, Op.ins 40, Op.ins 50,
      Op.ins 25]) = [10, 20, 25, 30, 40, 50] ∧
    rootValue (runOps [Op.ins 10, Op.ins 20, Op.ins 30, Op.ins 40, Op.ins 50,
      Op.ins 25]) = some 30 ∧
    contains (remove (runOps [Op.ins 10, Op.ins 20, Op.ins 30, Op.ins 40,
      Op.ins 50, Op.ins 25]) 30) 30 = false ∧
    inOrder (remove (runOps [Op.ins 10, Op.ins 20, Op.ins 30, Op.ins 40,
      Op.ins 50, Op.ins 25]) 30) = [10, 20, 25, 40, 50] ∧
    (getBalance (remove (runOps [Op.ins 10, Op.ins 20, Op.ins 30, Op.ins 40,
      Op.ins 50, Op.ins 25]) 30) = -1 ∨
     getBalance (remove (runOps [Op.ins 10, Op.ins 20, Op.ins 30, Op.ins 40,
      Op.ins 50, Op.ins 25]) 30) = 0 ∨
     getBalance (remove (runOps [Op.ins 10, Op.ins 20, Op.ins 30, Op.ins 40,
      Op.ins 50, Op.ins 25]) 30) = 1) := by
  refine ⟨?_, ?_, ?_, ?_, ?_⟩ <;> decide

/-- C9: on a tree satisfying the data-model invariants, removing a value not
stored in it (the empty tree included) is a silent no-op: the identical tree
is returned, so `empty` and every other observation are unchanged. -/
theorem c9_remove_absent_noop {t : Tree} (hh : heightsOk t = true)
    (hb : balancedOk t = true) (hs : bstOk t = true) {v : Int}
    (hv : v ∉ inOrder t) :
    remove t v = t ∧ empty (remove t v) = empty t := by
  have hc : contains t v = false := by
    cases hcc : contains t v with
    | false => rfl
    | true => exact absurd ((contains_iff_mem hs).mp hcc) hv
  have he := remove_of_not_contains hh hb hc
  exact ⟨he, by rw [he]⟩

/-- Witness for C9 both on the empty tree and on the three-node tree {1, 2, 3},
removing the absent value 9. -/
theorem c9_remove_absent_noop_witness :
    (remove nil 9 = nil ∧ empty (remove nil 9) = empty nil) ∧
    (remove (node 2 (node 1 nil nil 1) (node 3 nil nil 1) 2) 9 =
        node 2 (node 1 nil nil 1) (node 3 nil nil 1) 2 ∧
      empty (remove (node 2 (node 1 nil nil 1) (node 3 nil nil 1) 2) 9) =
        empty (node 2 (node 1 nil nil 1) (node 3 nil nil 1) 2)) :=
  ⟨c9_remove_absent_noop (by decide) (by decide) (by decide) (by decide),
    c9_remove_absent_noop (by decide) (by decide) (by decide) (by decide)⟩

/-- C10: under the data-model invariants every unguarded child dereference in
the helper functions is safe.  The Option-valued re-reading of the source —
which returns `none` exactly where `rotateRight`, `rotateLeft`, `removeMin` or
`balance` would dereference an absent node — always returns `some` and agrees
with the total model: for `balance` under its caller-guaranteed precondition
(valid subtrees, balance factor in `[-2, 2]`), for `removeMin` on any
non-absent invariant-satisfying subtree, and for `remove` on any
invariant-satisfying tree. -/
theorem c10_no_null_dereference :
    (∀ (v h : Int) (l r : Tree), heightsOk l = true → heightsOk r = true →
      balancedOk l = true → balancedOk r = true →
      -2 ≤ getHeight l - getHeight r → getHeight l - getHeight r ≤ 2 →
      balanceO (node v l r h) = some (balance (node v l r h))) ∧
    (∀ (v h : Int) (l r : Tree), heightsOk (node v l r h) = true →
      balancedOk (node v l r h) = true →
      removeMinO (node v l r h) = some (removeMin (node v l r h))) ∧
    (∀ (value : Int) (t : Tree), heightsOk t = true → balancedOk t = true →
      bstOk t = true → removeO t value = some (remove t value)) :=
  ⟨fun _ _ _ _ hl hr bl br hd₁ hd₂ => balanceO_eq hl hr bl br hd₁ hd₂,
    fun _ _ _ _ hh hb => removeMinO_eq hh hb,
    fun value _ hh hb hs => removeO_eq value hh hb hs⟩

/-- Witness for C10: a rotating `balance` call, a two-level `removeMin`, and a
root removal on the three-node tree, each agreeing with the total model. -/
theorem c10_no_null_dereference_witness :
    balanceO (node 4 (node 2 (node 1 nil nil 1) nil 2) nil 77) =
      some (balance (node 4 (node 2 (node 1 nil nil 1) nil 2) nil 77)) ∧
    removeMinO (node 2 (node 1 nil nil 1) (node 3 nil nil 1) 2) =
      some (removeMin (node 2 (node 1 nil nil 1) (node 3 nil nil 1) 2)) ∧
    removeO (node 2 (node 1 nil nil 1) (node 3 nil nil 1) 2) 2 =
      some (remove (node 2 (node 1 nil nil 1) (node 3 nil nil 1) 2) 2) :=
  ⟨c10_no_null_dereference.1 4 77 (node 2 (node 1 nil nil 1) nil 2) nil
      (by decide) (by decide) (by decide) (by decide) (by decide) (by decide),
    c10_no_null_dereference.2.1 2 2 (node 1 nil nil 1) (node 3 nil nil 1)
      (by decide) (by decide),
    c10_no_null_dereference.2.2 2 (node 2 (node 1 nil nil 1) (node 3 nil nil 1) 2)
      (by decide) (by decide) (by decide)⟩

end AVL

namespace AVL

open Tree

/-- Combinatorial core of the AVL height bound: a tree satisfying the height
and balance invariants with cached root height `h` has at least `fib(h+2) - 1`
nodes.  (The real-valued bound `h ≤ 1.44·log2(n+2)` of the spec follows from
this only with the exact constant `1/log2(φ) ≈ 1.44042`; with the truncated
constant 1.44 it fails for astronomically large `n`.) -/
theorem fib_size_lower_bound : ∀ {t : Tree},
    heightsOk t = true → balancedOk t = true →
    Nat.fib ((getHeight t).toNat + 2) ≤ size t + 1 := by
  intro t
  induction t with
  | nil => intro _ _; decide
  | node v l r h ihl ihr =>
      intro hh hb
      rcases heightsOk_node.mp hh with ⟨hhe, hhl, hhr⟩
      rcases balancedOk_node.mp hb with ⟨⟨hb₁, hb₂⟩, hbl, hbr⟩
      have hlnn := getHeight_nonneg hhl
      have hrnn := getHeight_nonneg hhr
      have ihl2 := ihl hhl hbl
      have ihr2 := ihr hhr hbr
      rcases le_total (getHeight l) (getHeight r) with hc | hc
      · have ht : (getHeight (node v l r h)).toNat = (getHeight r).toNat + 1 := by
          rw [getHeight_node]
          omega
        rw [ht]
        have hfib : Nat.fib ((getHeight r).toNat + 1 + 2) =
            Nat.fib ((getHeight r).toNat + 1) + Nat.fib ((getHeight r).toNat + 1 + 1) := by
          rw [Nat.fib_add_two]
        have hidx : (getHeight r).toNat + 1 + 1 = (getHeight r).toNat + 2 := by omega
        rw [hidx] at hfib
        have hmono : Nat.fib ((getHeight r).toNat + 1) ≤
            Nat.fib ((getHeight l).toNat + 2) := by
          exact Nat.fib_mono (by omega)
        simp only [size]
        omega
      · have ht : (getHeight (node v l r h)).toNat = (getHeight l).toNat + 1 := by
          rw [getHeight_node]
          omega
        rw [ht]
        have hfib : Nat.fib ((getHeight l).toNat + 1 + 2) =
            Nat.fib ((getHeight l).toNat + 1) + Nat.fib ((getHeight l).toNat + 1 + 1) := by
          rw [Nat.fib_add_two]
        have hidx : (getHeight l).toNat + 1 + 1 = (getHeight l).toNat + 2 := by omega
        rw [hidx] at hfib
        have hmono : Nat.fib ((getHeight l).toNat + 1) ≤
            Nat.fib ((getHeight r).toNat + 2) := by
          exact Nat.fib_mono (by omega)
        simp only [size]
        omega

/-- Concrete rebalancing scenario of the spec: inserting 1, 2, 3, 4, 5 in
ascending order yields a tree of height 3, not the degenerate height 5. -/
theorem ascending_insert_height_three :
    getHeight (runOps [Op.ins 1, Op.ins 2, Op.ins 3, Op.ins 4, Op.ins 5]) = 3 := by
  decide

end AVL
